import Mathlib

/-!
Verification development for the FractalAnalogMultiplier repository
(src/fractal_multiplier.py).

The Python source is shallowly embedded:
* `generate_fibonacci` models `FractalMultiplier._generate_fibonacci`
  (the loop `fib = [1,1]; for i in range(2, n): fib.append(fib[-1] + fib[-2])`).
* `compute_product` models `FractalMultiplier.compute_product` (the
  `@lru_cache` decorator memoizes a pure function and does not change the
  returned value, so it is dropped).
* `compute_gcd` / `get_subtraction_sequence` model `EuclideanGCD`.
* `simulate_multiplication` / `simulate_gcd_computation` model
  `AnalogComputingSimulator` with the noise standard deviation forced to 0
  (then `np.random.normal(1, 0)` is exactly `1`).  The simulator appears
  twice: an exact-`ℚ` version used only for structure-level properties
  that do not depend on rounding (the membership guard, the cell sets and
  the deactivation walk), and a float64 version
  (`simulate_multiplication_float`, built on `flRound`, IEEE-754
  round-to-nearest-even at 53 bits over exact rationals) against which
  the exact-equality numerical claim is settled, since the program
  computes conductances in float64 and its rounding is observable in the
  results.  The `snr_db` field of the multiplication result uses a
  transcendental `log10` and is not the subject of any stated property,
  so it is not modelled.
-/

set_option autoImplicit false
set_option maxRecDepth 65536

/-- Closed form of the table entries produced by `_generate_fibonacci`:
entry `i` (0-based) is the (i+1)-st Fibonacci number with F(1) = F(2) = 1. -/
def fibI : Nat → Int
  | 0 => 1
  | 1 => 1
  | n + 2 => fibI (n + 1) + fibI n

/-- One iteration of the generator loop body
`fib.append(fib[-1] + fib[-2])`: `fib[-1]` is the last element and
`fib[-2]` the element at index `len - 2`. -/
def fibStep (l : List Int) : List Int :=
  l ++ [l.getLastD 0 + l.getD (l.length - 2) 0]

/-- `FractalMultiplier._generate_fibonacci(n)`: start from `[1, 1]` and run
the loop body once for each `i in range(2, n)`, i.e. `n - 2` times
(zero times when `n ≤ 2`, matching the empty Python range). -/
def generate_fibonacci (n : Nat) : List Int :=
  fibStep^[n - 2] [1, 1]

theorem fibI_pos (n : Nat) : 1 ≤ fibI n := by
  induction n using Nat.strong_induction_on with
  | _ n ih =>
    match n with
    | 0 => exact le_refl 1
    | 1 => exact le_refl 1
    | n + 2 =>
      have h1 := ih (n + 1) (by omega)
      have h2 := ih n (by omega)
      simp only [fibI]
      omega

theorem fibI_le_succ (n : Nat) : fibI n ≤ fibI (n + 1) := by
  match n with
  | 0 => exact le_refl 1
  | n + 1 =>
    have := fibI_pos n
    simp only [fibI]
    omega

theorem fibI_lt_succ_of_pos (n : Nat) : fibI (n + 1) < fibI (n + 2) := by
  have := fibI_pos n
  simp only [fibI]
  omega

theorem fibI_lt_of_lt (j k : Nat) (hj : 1 ≤ j) (h : j < k) : fibI j < fibI k := by
  induction k with
  | zero => omega
  | succ m ih =>
    rcases Nat.lt_succ_iff_lt_or_eq.mp h with h' | h'
    · exact lt_of_lt_of_le (ih h') (fibI_le_succ m)
    · subst h'
      match j, hj with
      | m + 1, _ => exact fibI_lt_succ_of_pos m

theorem fibI_lt_of_lt_of_two_le (j k : Nat) (h2 : 2 ≤ k) (hjk : j < k) :
    fibI j < fibI k := by
  match j with
  | 0 =>
    have h := fibI_lt_of_lt 1 k (le_refl 1) (by omega)
    simpa [fibI] using h
  | j + 1 => exact fibI_lt_of_lt (j + 1) k (by omega) hjk

theorem iterate_fibStep (k : Nat) :
    fibStep^[k] [1, 1] = (List.range (k + 2)).map fibI := by
  induction k with
  | zero => rfl
  | succ m ih =>
    rw [Function.iterate_succ_apply', ih]
    have hlen : ((List.range (m + 2)).map fibI).length = m + 2 := by
      simp
    have hsplit : (List.range (m + 3)).map fibI
        = (List.range (m + 2)).map fibI ++ [fibI (m + 2)] := by
      rw [List.range_succ, List.map_append]
      rfl
    have hlast : ((List.range (m + 2)).map fibI).getLastD 0 = fibI (m + 1) := by
      have : (List.range (m + 2)).map fibI
          = (List.range (m + 1)).map fibI ++ [fibI (m + 1)] := by
        rw [List.range_succ, List.map_append]
        rfl
      rw [this, List.getLastD_eq_getLast?, List.getLast?_concat]
      rfl
    have hsnd : ((List.range (m + 2)).map fibI).getD
        (((List.range (m + 2)).map fibI).length - 2) 0 = fibI m := by
      rw [hlen]
      have hm : m + 2 - 2 = m := by omega
      rw [hm]
      have hm2 : m < ((List.range (m + 2)).map fibI).length := by
        rw [hlen]; omega
      rw [List.getD_eq_getElem _ _ hm2]
      simp [List.getElem_map, List.getElem_range]
    rw [fibStep, hlast, hsnd, hsplit]
    have : fibI (m + 1) + fibI m = fibI (m + 2) := by
      simp [fibI]
    rw [this]

theorem generate_fibonacci_eq (n : Nat) :
    generate_fibonacci n = (List.range (max n 2)).map fibI := by
  rw [generate_fibonacci, iterate_fibStep]
  have h : n - 2 + 2 = max n 2 := by omega
  rw [h]

theorem generate_fibonacci_length (n : Nat) :
    (generate_fibonacci n).length = max n 2 := by
  rw [generate_fibonacci_eq]
  simp

theorem fibI_mem_generate (n k : Nat) (h : k < max n 2) :
    fibI k ∈ generate_fibonacci n := by
  rw [generate_fibonacci_eq]
  exact List.mem_map.mpr ⟨k, List.mem_range.mpr h, rfl⟩

theorem one_le_of_mem_generate (n : Nat) (x : Int)
    (hx : x ∈ generate_fibonacci n) : 1 ≤ x := by
  rw [generate_fibonacci_eq] at hx
  obtain ⟨k, _, rfl⟩ := List.mem_map.mp hx
  exact fibI_pos k

theorem generate_getD (n i : Nat) (h : i < max n 2) :
    (generate_fibonacci n).getD i 0 = fibI i := by
  rw [generate_fibonacci_eq]
  have hlen : i < ((List.range (max n 2)).map fibI).length := by simp [h]
  rw [List.getD_eq_getElem _ _ hlen]
  simp [List.getElem_map, List.getElem_range]

/-- `list.index(v)` returns the index of the first occurrence of `v`. -/
theorem indexOf_eq_of_get (l : List Int) (v : Int) (k : Nat) (hk : k < l.length)
    (hv : l.get ⟨k, hk⟩ = v)
    (hprev : ∀ j : Fin l.length, (j : Nat) < k → l.get j ≠ v) :
    List.indexOf v l = k := by
  induction l generalizing k with
  | nil => simp at hk
  | cons a t ih =>
    match k, hk with
    | 0, _ =>
      exact List.indexOf_cons_eq t (by simpa using hv)
    | k + 1, hk =>
      have hhead : a ≠ v := by
        have := hprev ⟨0, by simp⟩ (by simp)
        simpa using this
      rw [List.indexOf_cons_ne t hhead]
      have hk' : k < t.length := by simpa using hk
      have hv' : t.get ⟨k, hk'⟩ = v := by simpa using hv
      have hprev' : ∀ j : Fin t.length, (j : Nat) < k → t.get j ≠ v := by
        intro j hj
        have hjs : (j : Nat) + 1 < (a :: t).length := by
          simp [Nat.succ_lt_succ j.isLt]
        have := hprev ⟨(j : Nat) + 1, hjs⟩ (by simp only [Fin.val_mk]; omega)
        simpa using this
      rw [ih k hk' hv' hprev']

theorem generate_indexOf (n k : Nat) (h2 : 2 ≤ k) (hk : k < max n 2) :
    List.indexOf (fibI k) (generate_fibonacci n) = k := by
  have hlen : k < (generate_fibonacci n).length := by
    rw [generate_fibonacci_length]; exact hk
  apply indexOf_eq_of_get _ _ k hlen
  · have h := generate_getD n k hk
    rw [List.getD_eq_getElem _ _ hlen] at h
    simpa [List.get_eq_getElem] using h
  · intro j hj
    have hjlen : (j : Nat) < max n 2 := by
      have h1 := j.isLt
      have h2' := generate_fibonacci_length n
      omega
    have h := generate_getD n j hjlen
    have hjlen' : (j : Nat) < (generate_fibonacci n).length := j.isLt
    rw [List.getD_eq_getElem _ _ hjlen'] at h
    rw [List.get_eq_getElem, h]
    exact ne_of_lt (fibI_lt_of_lt_of_two_le j k h2 hj)

theorem generate_indexOf_one (n : Nat) :
    List.indexOf (1 : Int) (generate_fibonacci n) = 0 := by
  have hlen : 0 < (generate_fibonacci n).length := by
    rw [generate_fibonacci_length]; omega
  apply indexOf_eq_of_get _ _ 0 hlen
  · have h := generate_getD n 0 (by omega)
    rw [List.getD_eq_getElem _ _ hlen] at h
    simp only [List.get_eq_getElem]
    rw [h]
    rfl
  · intro j hj
    omega

/-- Sum-of-squares identity over the Fibonacci table:
`F(1)² + ... + F(k+1)² = F(k+1) * F(k+2)` (0-based prefix up to index `k`). -/
theorem sum_squares_range (k : Nat) :
    ((List.range (k + 1)).map (fun i => fibI i * fibI i)).sum
      = fibI k * fibI (k + 1) := by
  induction k with
  | zero => decide
  | succ m ih =>
    rw [List.range_succ, List.map_append, List.sum_append, ih]
    have h2 : fibI (m + 2) = fibI (m + 1) + fibI m := by simp [fibI]
    simp only [List.map_cons, List.map_nil, List.sum_cons, List.sum_nil, h2]
    ring

/-- Lookup in the `squares` dict `{f: f*f for f in fib}`:
for any table entry the stored square is exactly `value * value`. -/
def squares_lookup (v : Int) : Int := v * v

/-- `FractalMultiplier.compute_product(a, b)` over table `m` (the instance's
`self.fib` / `self.fib_set`).  If either operand is not a table member the
fallback returns the ordinary product; otherwise it sums the squares of the
table prefix up to (and including) the index of the first occurrence of
`min(a, b)`.  `smaller`/`idx` of the source are inlined; the `@lru_cache`
memoization of a pure function is value-transparent and not modelled. -/
def compute_product (m : List Int) (a b : Int) : Int :=
  if a ∉ m ∨ b ∉ m then a * b
  else
    ((List.range (List.indexOf (min a b) m + 1)).map
      (fun i => squares_lookup (m.getD i 0))).sum

/-- The `FractalMultiplier()` instance table: `_generate_fibonacci(100)`
(constructor default `max_n = 100`). -/
def fibM : List Int := generate_fibonacci 100

/-- The simulator's table: `FractalMultiplier(23).fib`
(`AnalogComputingSimulator` default `max_fib = 23`). -/
def fibS : List Int := generate_fibonacci 23

theorem generate_prefix_sum (n k : Nat) (hk : k < max n 2) :
    ((List.range (k + 1)).map
        (fun i => squares_lookup ((generate_fibonacci n).getD i 0))).sum
      = fibI k * fibI (k + 1) := by
  have hcongr : (List.range (k + 1)).map
        (fun i => squares_lookup ((generate_fibonacci n).getD i 0))
      = (List.range (k + 1)).map (fun i => fibI i * fibI i) := by
    apply List.map_congr_left
    intro i hi
    have hi' : i < max n 2 := by
      have := List.mem_range.mp hi
      omega
    rw [generate_getD n i hi']
    rfl
  rw [hcongr, sum_squares_range]

/-- C1 (counterexample): `2` and `5` are both Fibonacci table members and
both at least `F(3) = 2`, yet `compute_product(2, 5) = 6 ≠ 2 * 5 = 10`:
the sum of squares up to the index of `min(a, b)` equals
`min(a, b) * F(idx + 2)`, which is the product only for consecutive pairs. -/
theorem claim_C1_cex :
    (2 : Int) ∈ fibM ∧ (5 : Int) ∈ fibM ∧ (2 : Int) ≤ 2 ∧ (2 : Int) ≤ 5 ∧
      compute_product fibM 2 5 = 6 ∧ (6 : Int) ≠ 2 * 5 := by
  decide

/-- C1 (amended): for every *consecutive* Fibonacci pair of table members
with the smaller operand at least `F(3) = 2` — i.e. operands
`fibI k` and `fibI (k+1)` with `2 ≤ k` and `k + 1 < 100` — the
sum-of-squares computation returns exactly `a * b`, in either argument
order. -/
theorem claim_C1_consecutive (k : Nat) (h2 : 2 ≤ k) (hk : k + 1 < 100) :
    compute_product fibM (fibI k) (fibI (k + 1)) = fibI k * fibI (k + 1) ∧
    compute_product fibM (fibI (k + 1)) (fibI k) = fibI k * fibI (k + 1) := by
  have hm1 : fibI k ∈ fibM := fibI_mem_generate 100 k (by omega)
  have hm2 : fibI (k + 1) ∈ fibM := fibI_mem_generate 100 (k + 1) (by omega)
  have hmin1 : min (fibI k) (fibI (k + 1)) = fibI k := min_eq_left (fibI_le_succ k)
  have hmin2 : min (fibI (k + 1)) (fibI k) = fibI k := min_eq_right (fibI_le_succ k)
  have hidx : List.indexOf (fibI k) fibM = k := generate_indexOf 100 k h2 (by omega)
  have hsum := generate_prefix_sum 100 k (by omega)
  constructor
  · have hcond : ¬(fibI k ∉ fibM ∨ fibI (k + 1) ∉ fibM) := by
      push_neg
      exact ⟨hm1, hm2⟩
    simp only [compute_product, if_neg hcond, hmin1, hidx]
    exact hsum
  · have hcond : ¬(fibI (k + 1) ∉ fibM ∨ fibI k ∉ fibM) := by
      push_neg
      exact ⟨hm2, hm1⟩
    simp only [compute_product, if_neg hcond, hmin2, hidx]
    exact hsum

theorem claim_C1_consecutive_witness :
    2 ≤ 5 ∧ 5 + 1 < 100 ∧
      (compute_product fibM (fibI 5) (fibI 6) = fibI 5 * fibI 6 ∧
       compute_product fibM (fibI 6) (fibI 5) = fibI 5 * fibI 6) :=
  ⟨by omega, by omega, claim_C1_consecutive 5 (by omega) (by omega)⟩

/-- C8: whenever at least one operand is absent from the Fibonacci table,
`compute_product` returns the ordinary product `a * b` (the documented
fallback), for arbitrary integers, and no error path exists. -/
theorem claim_C8_fallback (a b : Int) (h : a ∉ fibM ∨ b ∉ fibM) :
    compute_product fibM a b = a * b := by
  simp only [compute_product, if_pos h]

theorem claim_C8_fallback_witness :
    ((4 : Int) ∉ fibM ∨ (3 : Int) ∉ fibM) ∧ compute_product fibM 4 3 = 4 * 3 :=
  ⟨by decide, claim_C8_fallback 4 3 (by decide)⟩

/-- C9: for every Fibonacci table member `b`, `compute_product(1, b) = 1`:
`min(1, b) = 1` and `list.index(1)` resolves to the first of the two
occurrences of `1` (index 0), so the summed prefix is the single square
`1`. -/
theorem claim_C9_one (b : Int) (hb : b ∈ fibM) : compute_product fibM 1 b = 1 := by
  have h1 : (1 : Int) ∈ fibM := by
    have h := fibI_mem_generate 100 0 (by omega)
    simpa [fibI] using h
  have hcond : ¬((1 : Int) ∉ fibM ∨ b ∉ fibM) := by
    push_neg
    exact ⟨h1, hb⟩
  have hmin : min (1 : Int) b = 1 := min_eq_left (one_le_of_mem_generate 100 b hb)
  have hidx : List.indexOf (1 : Int) fibM = 0 := generate_indexOf_one 100
  have h0 : fibM.getD 0 0 = 1 := by
    have h := generate_getD 100 0 (by omega)
    simpa [fibI] using h
  simp only [compute_product, if_neg hcond, hmin, hidx]
  have hr : List.range (0 + 1) = [0] := rfl
  rw [hr]
  simp only [List.map_cons, List.map_nil, List.sum_cons, List.sum_nil,
    squares_lookup, h0]
  norm_num

theorem claim_C9_one_witness :
    (8 : Int) ∈ fibM ∧ compute_product fibM 1 8 = 1 ∧ (1 : Int) ≠ 8 :=
  ⟨by decide, claim_C9_one 8 (by decide), by decide⟩

/-- `EuclideanGCD.compute_gcd(a, b)`: the while loop records one
`(quotient, remainder, 1)` operation and one `(a, b)` path entry per
iteration, then appends the final path entry `(a, 0)` and returns `a`.
Modelled as a triple `(gcd, operations, path)`; the loop's append order is
realised by prepending along the recursion. -/
def compute_gcd (a b : Nat) : Nat × List (Nat × Nat × Nat) × List (Nat × Nat) :=
  if h : b = 0 then (a, [], [(a, 0)])
  else
    let r := compute_gcd b (a % b)
    (r.1, (a / b, a % b, 1) :: r.2.1, (a, b) :: r.2.2)
termination_by b
decreasing_by exact Nat.mod_lt a (Nat.pos_of_ne_zero h)

/-- `EuclideanGCD.get_subtraction_sequence()`: for each recorded operation
`i`, append the step's divisor (`path[i]`'s second component) exactly
`quotient` times, in step order.  The index-parallel walk over
`operations` and `path` is realised by zipping (the path is always one
entry longer, so the zip covers exactly `range(len(operations))`). -/
def get_subtraction_sequence (ops : List (Nat × Nat × Nat))
    (path : List (Nat × Nat)) : List Nat :=
  ((ops.zip path).map (fun p => List.replicate p.1.1 p.2.2)).flatten

theorem compute_gcd_zero (a : Nat) : compute_gcd a 0 = (a, [], [(a, 0)]) := by
  rw [compute_gcd]
  simp

theorem compute_gcd_step (a b : Nat) (hb : b ≠ 0) :
    compute_gcd a b
      = ((compute_gcd b (a % b)).1,
         (a / b, a % b, 1) :: (compute_gcd b (a % b)).2.1,
         (a, b) :: (compute_gcd b (a % b)).2.2) := by
  rw [compute_gcd]
  simp [hb]

/-- C2: the first component of `compute_gcd` is the number-theoretic gcd
(`Nat.gcd`), for arbitrary non-negative integers; the recursion is
well-founded (the divisor strictly decreases), so the computation
terminates by construction. -/
theorem claim_C2_gcd_correct (a b : Nat) : (compute_gcd a b).1 = Nat.gcd a b := by
  induction b using Nat.strong_induction_on generalizing a with
  | _ b ih =>
    by_cases hb : b = 0
    · subst hb
      rw [compute_gcd_zero]
      simp [Nat.gcd_zero_right]
    · rw [compute_gcd_step a b hb]
      have hrec := ih (a % b) (Nat.mod_lt a (Nat.pos_of_ne_zero hb)) b
      rw [hrec, Nat.gcd_comm a b, Nat.gcd_rec b a, Nat.gcd_comm (a % b) b]

theorem gcd_path_length (a b : Nat) :
    (compute_gcd a b).2.2.length = (compute_gcd a b).2.1.length + 1 := by
  induction b using Nat.strong_induction_on generalizing a with
  | _ b ih =>
    by_cases hb : b = 0
    · subst hb
      rw [compute_gcd_zero]
      rfl
    · rw [compute_gcd_step a b hb]
      have hrec := ih (a % b) (Nat.mod_lt a (Nat.pos_of_ne_zero hb)) b
      simp [hrec]

theorem gcd_path_getLast (a b : Nat) :
    (compute_gcd a b).2.2.getLast? = some ((compute_gcd a b).1, 0) := by
  induction b using Nat.strong_induction_on generalizing a with
  | _ b ih =>
    by_cases hb : b = 0
    · subst hb
      rw [compute_gcd_zero]
      rfl
    · rw [compute_gcd_step a b hb]
      have hrec := ih (a % b) (Nat.mod_lt a (Nat.pos_of_ne_zero hb)) b
      have hne : (compute_gcd b (a % b)).2.2 ≠ [] := by
        intro hnil
        rw [hnil] at hrec
        simp at hrec
      obtain ⟨x, xs, hx⟩ := List.exists_cons_of_ne_nil hne
      simp only [hx] at hrec
      simp only [hx, List.getLast?_cons_cons]
      exact hrec

/-- C6: the recorded path always has exactly one more entry than the
recorded step sequence; the final path entry is `(gcd, 0)`; and when the
second argument is `0` the loop body never runs: no steps, gcd `a`, path
`[(a, 0)]`. -/
theorem claim_C6_path_invariants (a b : Nat) :
    (compute_gcd a b).2.2.length = (compute_gcd a b).2.1.length + 1 ∧
    (compute_gcd a b).2.2.getLast? = some ((compute_gcd a b).1, 0) ∧
    compute_gcd a 0 = (a, [], [(a, 0)]) :=
  ⟨gcd_path_length a b, gcd_path_getLast a b, compute_gcd_zero a⟩

theorem subtraction_sequence_zero (a : Nat) :
    get_subtraction_sequence (compute_gcd a 0).2.1 (compute_gcd a 0).2.2 = [] := by
  rw [compute_gcd_zero]
  rfl

theorem subtraction_sequence_step (a b : Nat) (hb : b ≠ 0) :
    get_subtraction_sequence (compute_gcd a b).2.1 (compute_gcd a b).2.2
      = List.replicate (a / b) b ++
        get_subtraction_sequence (compute_gcd b (a % b)).2.1
          (compute_gcd b (a % b)).2.2 := by
  rw [compute_gcd_step a b hb]
  rfl

/-- C4 (counterexample): `(21, 13)` is a Fibonacci pair, its subtraction
sequence is `[13, 8, 5, 3, 2, 1, 1]` with sum `33` and gcd `1`, and
`33 + 1 = 34 ≠ 21`: the round trip does not reconstruct the dividend `a`. -/
theorem claim_C4_cex :
    (21 : Int) ∈ fibM ∧ (13 : Int) ∈ fibM ∧
      (get_subtraction_sequence (compute_gcd 21 13).2.1
          (compute_gcd 21 13).2.2).sum + (compute_gcd 21 13).1 = 34 ∧
      (34 : Nat) ≠ 21 := by
  have h : compute_gcd 21 13
      = (1, [(1, 8, 1), (1, 5, 1), (1, 3, 1), (1, 2, 1), (1, 1, 1), (2, 0, 1)],
         [(21, 13), (13, 8), (8, 5), (5, 3), (3, 2), (2, 1), (1, 0)]) := by
    simp [compute_gcd]
  refine ⟨by decide, by decide, ?_, by decide⟩
  rw [h]
  decide

/-- C4 (amended): for every pair of non-negative integers (so in
particular every Fibonacci pair), the sum of the subtraction sequence plus
the final remainder-zero gcd reconstructs `a + b`, the sum of both
operands — not the dividend `a` alone. -/
theorem claim_C4_roundtrip (a b : Nat) :
    (get_subtraction_sequence (compute_gcd a b).2.1
        (compute_gcd a b).2.2).sum + (compute_gcd a b).1 = a + b := by
  induction b using Nat.strong_induction_on generalizing a with
  | _ b ih =>
    by_cases hb : b = 0
    · subst hb
      rw [subtraction_sequence_zero, compute_gcd_zero]
      simp
    · rw [subtraction_sequence_step a b hb, compute_gcd_step a b hb]
      have hrec := ih (a % b) (Nat.mod_lt a (Nat.pos_of_ne_zero hb)) b
      simp only [List.sum_append, List.sum_replicate, smul_eq_mul]
      have hdm := Nat.div_add_mod a b
      have hcomm : a / b * b = b * (a / b) := Nat.mul_comm _ _
      omega

theorem subtraction_sequence_length (a b : Nat) :
    (get_subtraction_sequence (compute_gcd a b).2.1
        (compute_gcd a b).2.2).length
      = ((compute_gcd a b).2.1.map (fun o => o.1)).sum := by
  induction b using Nat.strong_induction_on generalizing a with
  | _ b ih =>
    by_cases hb : b = 0
    · subst hb
      rw [subtraction_sequence_zero, compute_gcd_zero]
      rfl
    · rw [subtraction_sequence_step a b hb, compute_gcd_step a b hb]
      have hrec := ih (a % b) (Nat.mod_lt a (Nat.pos_of_ne_zero hb)) b
      simp only [List.length_append, List.length_replicate, List.map_cons,
        List.sum_cons]
      omega

theorem gcd_operations_empty_iff (a b : Nat) :
    (compute_gcd a b).2.1 = [] ↔ b = 0 := by
  by_cases hb : b = 0
  · subst hb
    rw [compute_gcd_zero]
    simp
  · rw [compute_gcd_step a b hb]
    simp [hb]

theorem subtraction_sequence_empty_iff (a b : Nat) :
    get_subtraction_sequence (compute_gcd a b).2.1 (compute_gcd a b).2.2 = []
      ↔ a = 0 ∨ b = 0 := by
  induction b using Nat.strong_induction_on generalizing a with
  | _ b ih =>
    by_cases hb : b = 0
    · subst hb
      rw [subtraction_sequence_zero]
      simp
    · rw [subtraction_sequence_step a b hb]
      have hrec := ih (a % b) (Nat.mod_lt a (Nat.pos_of_ne_zero hb)) b
      rw [List.append_eq_nil, hrec]
      constructor
      · rintro ⟨hrep, hmod⟩
        have hd : a / b = 0 := by
          have hlen := congrArg List.length hrep
          simpa using hlen
        have hm : a % b = 0 := by
          rcases hmod with hm | hm
          · exact absurd hm hb
          · exact hm
        have hdm := Nat.div_add_mod a b
        left
        rw [hd, hm] at hdm
        omega
      · intro h
        rcases h with rfl | h
        · constructor
          · simp
          · right
            simp
        · exact absurd h hb

/-- C7 (counterexample): the spec's characterization of the empty
subtraction sequence fails in both directions.  At `(5, 5)` (`a == b`) the
sequence is `[5]`, not empty; at `(0, 5)` the sequence is empty while the
step sequence `[(0, 0, 1)]` is not. -/
theorem claim_C7_cex :
    ¬(get_subtraction_sequence (compute_gcd 5 5).2.1 (compute_gcd 5 5).2.2 = []
        ↔ ((5 : Nat) = 5 ∨ (5 : Nat) = 0)) ∧
    ¬(get_subtraction_sequence (compute_gcd 0 5).2.1 (compute_gcd 0 5).2.2 = []
        ↔ (compute_gcd 0 5).2.1 = []) := by
  have h1 : compute_gcd 5 5 = (5, [(1, 0, 1)], [(5, 5), (5, 0)]) := by
    simp [compute_gcd]
  have h2 : compute_gcd 0 5 = (5, [(0, 0, 1)], [(0, 5), (5, 0)]) := by
    simp [compute_gcd]
  constructor
  · rw [h1]
    decide
  · rw [h2]
    decide

/-- C7 (amended): the subtraction sequence's length always equals the sum
of the step quotients; the sequence is empty iff `a = 0` or `b = 0`
initially (not iff `a == b` or `b == 0`); and the step sequence itself is
empty iff `b = 0` initially. -/
theorem claim_C7_length_and_empty (a b : Nat) :
    (get_subtraction_sequence (compute_gcd a b).2.1
        (compute_gcd a b).2.2).length
      = ((compute_gcd a b).2.1.map (fun o => o.1)).sum ∧
    (get_subtraction_sequence (compute_gcd a b).2.1 (compute_gcd a b).2.2 = []
      ↔ a = 0 ∨ b = 0) ∧
    ((compute_gcd a b).2.1 = [] ↔ b = 0) :=
  ⟨subtraction_sequence_length a b, subtraction_sequence_empty_iff a b,
   gcd_operations_empty_iff a b⟩

/-- `self.base_conductance = 1e-6` (1 microsiemens), idealized as the
exact rational `1/10^6`.  This exact-`ℚ` value (and `cellCond` built on
it) only feeds properties that do not depend on rounding — the guard
behaviour and the set structure of the deactivation walk; the float64
value of the literal is `base_conductance_float` below. -/
def base_conductance : ℚ := 1 / 1000000

/-- `self.cells[size] = self.base_conductance * size**2`, the nominal
conductance of the RRAM cell keyed by the Fibonacci value `size`,
idealized as an exact rational (see `base_conductance`; the float64
counterpart is `cellCondF`). -/
def cellCond (size : Int) : ℚ := base_conductance * ((size * size : Int) : ℚ)

/-- Return record of `simulate_multiplication` (the `snr_db` field, a
transcendental of the others, is not modelled; no claim mentions it). -/
structure MulResult where
  true_product : Int
  measured_product : ℚ
  active_cells : Nat
  error_percent : ℚ
deriving DecidableEq

/-- Body of `AnalogComputingSimulator.simulate_multiplication` after the
membership guard, with the noise standard deviation forced to `0`
(each `np.random.normal(1, 0)` draw is exactly `1`) and the float64
arithmetic idealized as exact rationals.  This version backs only the
guard-level claim (which never inspects the numeric fields); the
numerical exactness claim is settled against the float64 version
`simulate_multiplication_coreF` below, because the idealization hides
the program's observable rounding. -/
def simulate_multiplication_core (a b : Int) (voltage : ℚ) : MulResult :=
  let idx := List.indexOf (min a b) fibS
  let active := fibS.take (idx + 1)
  let conductances := active.map (fun size => cellCond size * 1)
  let total := conductances.sum
  let current := voltage * total
  let measured := current / base_conductance
  ⟨a * b, measured, active.length,
   |measured - ((a * b : Int) : ℚ)| / ((a * b : Int) : ℚ) * 100⟩

/-- `AnalogComputingSimulator.simulate_multiplication`: raising
`ValueError("Both numbers must be Fibonacci")` is modelled as `none`. -/
def simulate_multiplication (a b : Int) (voltage : ℚ) : Option MulResult :=
  if a ∉ fibS ∨ b ∉ fibS then none
  else some (simulate_multiplication_core a b voltage)

/-- One entry of the `steps` list built by `simulate_gcd_computation`:
`{'step': i, 'deactivated': b_val, 'remaining_conductance': ...}`. -/
structure GcdStepRec where
  step : Nat
  deactivated : Int
  remaining_conductance : ℚ
deriving DecidableEq

/-- Return record of `simulate_gcd_computation`; `final_active_cells` is
`list(active_cells)`, a Python set in arbitrary order, modelled as the
underlying finite set. -/
structure GcdSimResult where
  gcd : Nat
  steps : Nat
  cells_deactivated : List GcdStepRec
  final_active_cells : Finset Int
deriving DecidableEq

/-- The loop `for i, (a_val, b_val) in enumerate(self.gcd.path[:-1])`:
if `b_val` is an active cell it is removed and a step is recorded with the
sum of the remaining nominal conductances; otherwise the entry is skipped.
The enumeration index `i` advances on every path entry. -/
def deactivation_walk :
    List (Nat × Nat) → Finset Int → Nat → List GcdStepRec × Finset Int
  | [], active, _ => ([], active)
  | (_, b_val) :: rest, active, i =>
    if (b_val : Int) ∈ active then
      let active' := active.erase (b_val : Int)
      let res := deactivation_walk rest active' (i + 1)
      (⟨i, (b_val : Int), active'.sum cellCond⟩ :: res.1, res.2)
    else
      deactivation_walk rest active (i + 1)

/-- Body of `AnalogComputingSimulator.simulate_gcd_computation` after the
membership guard.  Table members are positive, so the `Int`/`Nat`
conversion on the operands handed to `compute_gcd` is exact. -/
def simulate_gcd_core (a b : Int) : GcdSimResult :=
  let idx := List.indexOf (min a b) fibS
  let active := (fibS.take (idx + 1)).toFinset
  let t := compute_gcd a.toNat b.toNat
  let walk := deactivation_walk t.2.2.dropLast active 0
  ⟨t.1, walk.1.length, walk.1, walk.2⟩

/-- `AnalogComputingSimulator.simulate_gcd_computation`; the
`ValueError` raise is modelled as `none`. -/
def simulate_gcd_computation (a b : Int) : Option GcdSimResult :=
  if a ∉ fibS ∨ b ∉ fibS then none
  else some (simulate_gcd_core a b)

/-- C5: both simulator operations fail (raise `ValueError`, modelled as
`none`) exactly when an operand is absent from the Fibonacci table, and
succeed (return a value, with no fallback to plain multiplication in
either method body) exactly when both operands are members. -/
theorem claim_C5_invalid_input (a b : Int) (v : ℚ) :
    (simulate_multiplication a b v = none ↔ (a ∉ fibS ∨ b ∉ fibS)) ∧
    (simulate_gcd_computation a b = none ↔ (a ∉ fibS ∨ b ∉ fibS)) ∧
    ((simulate_multiplication a b v).isSome ↔ (a ∈ fibS ∧ b ∈ fibS)) ∧
    ((simulate_gcd_computation a b).isSome ↔ (a ∈ fibS ∧ b ∈ fibS)) := by
  by_cases h : a ∉ fibS ∨ b ∉ fibS
  · refine ⟨?_, ?_, ?_, ?_⟩ <;>
      simp [simulate_multiplication, simulate_gcd_computation, if_pos h] <;>
      tauto
  · refine ⟨?_, ?_, ?_, ?_⟩ <;>
      simp [simulate_multiplication, simulate_gcd_computation, if_neg h] <;>
      tauto

/-!
IEEE-754 binary64 model of the simulator's numerical claim.  The Python
program computes conductances, their sum and the reconstructed product in
float64; the numerical claim (exact equality of `measured_product` and
`true_product`) therefore depends on rounding.  `flRound` below is
round-to-nearest, ties-to-even at 53 significand bits over exact
rationals, with an unbounded exponent — which agrees with binary64 on
every magnitude occurring here (all values are normal and far from
overflow).  Each Python float operation performs exactly one such
rounding of the exact result.
-/

/-- `2^e` in `ℚ` for a signed exponent. -/
def qpow2 (e : Int) : ℚ :=
  if 0 ≤ e then (2 : ℚ) ^ e.toNat else 1 / (2 : ℚ) ^ (-e).toNat

/-- Round a non-negative rational to the nearest integer, ties to even. -/
def roundHalfEven (q : ℚ) : Int :=
  let f := q.floor
  let r := q - (f : ℚ)
  if r < 1 / 2 then f
  else if 1 / 2 < r then f + 1
  else if f % 2 = 0 then f else f + 1

/-- Scale a positive rational by powers of two into `[2^52, 2^53)`,
returning the scaled value and the exponent.  The fuel bound `2200`
(consumed once per halving or doubling) covers every finite binary64
magnitude; the values arising here use well under 200 steps. -/
def flScale : Nat → ℚ → Int → ℚ × Int
  | 0, q, e => (q, e)
  | fuel + 1, q, e =>
    if q < (2 : ℚ) ^ 52 then flScale fuel (q * 2) (e - 1)
    else if (2 : ℚ) ^ 53 ≤ q then flScale fuel (q / 2) (e + 1)
    else (q, e)

/-- IEEE-754 binary64 rounding of an exact rational: normalize the
magnitude into `[2^52, 2^53)`, round the 53-bit significand to nearest
(ties to even) and rescale.  Exponents are unbounded, which coincides
with binary64 for all normal, non-overflowing magnitudes — the only ones
arising in these computations. -/
def flRound (q : ℚ) : ℚ :=
  if q = 0 then 0
  else if q < 0 then
    -((roundHalfEven (flScale 2200 (-q) 0).1 : ℚ) * qpow2 (flScale 2200 (-q) 0).2)
  else
    (roundHalfEven (flScale 2200 q 0).1 : ℚ) * qpow2 (flScale 2200 q 0).2

/-- float64 addition: one rounding of the exact sum. -/
def fadd (x y : ℚ) : ℚ := flRound (x + y)

/-- float64 subtraction: one rounding of the exact difference. -/
def fsub (x y : ℚ) : ℚ := flRound (x - y)

/-- float64 multiplication: one rounding of the exact product. -/
def fmul (x y : ℚ) : ℚ := flRound (x * y)

/-- float64 division: one rounding of the exact quotient. -/
def fdiv (x y : ℚ) : ℚ := flRound (x / y)

/-- `np.sum` over a float64 array: for arrays of fewer than eight
elements numpy's pairwise summation reduces to a sequential left-to-right
accumulation from `0.0`, which this fold is.  Every array summed by the
claims below has at most seven elements. -/
def fsum (l : List ℚ) : ℚ := l.foldl fadd 0

/-- The float64 value of the Python literal `1e-6`
(`self.base_conductance`): the exact rational `1/10^6` rounded once,
namely `4722366482869645 / 2^72`. -/
def base_conductance_float : ℚ := flRound (1 / 1000000)

/-- `self.cells[size] = self.base_conductance * size**2` in float64: the
integer `size**2` converts to float64 exactly (all table squares are far
below `2^53`), and the multiplication rounds once. -/
def cellCondF (size : Int) : ℚ := fmul base_conductance_float ((size * size : Int) : ℚ)

/-- Body of `simulate_multiplication` after the membership guard, in
float64 arithmetic, with the noise standard deviation forced to `0`
(each `np.random.normal(1, 0)` draw is exactly `1.0`).  `true_product`
stays an exact integer; its float64 conversions inside `error_percent`
are exact since all products here are far below `2^53`. -/
def simulate_multiplication_coreF (a b : Int) (voltage : ℚ) : MulResult :=
  let idx := List.indexOf (min a b) fibS
  let active := fibS.take (idx + 1)
  let conductances := active.map (fun size => fmul (cellCondF size) 1)
  let total := fsum conductances
  let current := fmul voltage total
  let measured := fdiv current base_conductance_float
  ⟨a * b, measured, active.length,
   fmul (fdiv |fsub measured ((a * b : Int) : ℚ)| ((a * b : Int) : ℚ)) 100⟩

/-- `AnalogComputingSimulator.simulate_multiplication` in float64
arithmetic (noise forced to `0`); the `ValueError` raise is modelled as
`none`. -/
def simulate_multiplication_float (a b : Int) (voltage : ℚ) : Option MulResult :=
  if a ∉ fibS ∨ b ∉ fibS then none
  else some (simulate_multiplication_coreF a b voltage)

section

attribute [local semireducible] Rat.add Rat.mul Rat.sub Rat.inv

/-- C3 (counterexample): `3` and `5` are both Fibonacci table members,
yet with the noise standard deviation forced to `0` and voltage `1.0`
the float64 simulation returns
`measured_product = 15.000000000000002 = (15·2^49 + 1)/2^49` and
`error_percent ≈ 1.184e-14`, not exactly `15` and `0`: float64 rounding
breaks exact equality even for this consecutive Fibonacci pair. -/
theorem claim_C3_cex :
    (3 : Int) ∈ fibS ∧ (5 : Int) ∈ fibS ∧
      simulate_multiplication_float 3 5 1
        = some ⟨15, 8444249301319681 / 562949953421312, 4,
                7505999378950827 / 633825300114114700748351602688⟩ ∧
      ((8444249301319681 / 562949953421312 : ℚ) ≠ ((15 : Int) : ℚ)) ∧
      ((7505999378950827 / 633825300114114700748351602688 : ℚ) ≠ 0) := by
  refine ⟨by decide, by decide, by decide, by decide, by decide⟩

/-- C3 (amended): the spec's concrete scenario holds exactly in float64:
with the noise standard deviation forced to `0` and voltage `1.0`,
`simulate_multiplication(8, 13)` — in either argument order — returns
`true_product = 104`, `measured_product` exactly `104.0` and
`error_percent` exactly `0.0` (every intermediate rounding happens to be
exact for this pair).  Exactness does not extend to all member pairs:
non-consecutive pairs measure the prefix sum instead of `a*b`, and even
consecutive pairs can round, as `(3, 5)` shows. -/
theorem claim_C3_float_exact_8_13 :
    simulate_multiplication_float 8 13 1
      = some ⟨104, ((104 : Int) : ℚ), 6, 0⟩ ∧
    simulate_multiplication_float 13 8 1
      = some ⟨104, ((104 : Int) : ℚ), 6, 0⟩ := by
  constructor
  · decide
  · decide

end

theorem deactivation_walk_spec (p : List (Nat × Nat)) :
    ∀ (act : Finset Int) (i : Nat),
      ((deactivation_walk p act i).1.map GcdStepRec.deactivated).Nodup ∧
      (∀ x ∈ (deactivation_walk p act i).1.map GcdStepRec.deactivated, x ∈ act) ∧
      ((deactivation_walk p act i).2 ∪
          ((deactivation_walk p act i).1.map GcdStepRec.deactivated).toFinset
        = act) ∧
      (deactivation_walk p act i).2 ⊆ act ∧
      Disjoint (deactivation_walk p act i).2
        ((deactivation_walk p act i).1.map GcdStepRec.deactivated).toFinset := by
  induction p with
  | nil =>
    intro act i
    simp [deactivation_walk]
  | cons hd rest ih =>
    intro act i
    obtain ⟨av, bv⟩ := hd
    by_cases hmem : (bv : Int) ∈ act
    · have key : deactivation_walk ((av, bv) :: rest) act i
          = (⟨i, (bv : Int), (act.erase (bv : Int)).sum cellCond⟩ ::
              (deactivation_walk rest (act.erase (bv : Int)) (i + 1)).1,
             (deactivation_walk rest (act.erase (bv : Int)) (i + 1)).2) := by
        simp [deactivation_walk, hmem]
      obtain ⟨hnd, hmem', hunion, hsub, hdisj⟩ := ih (act.erase (bv : Int)) (i + 1)
      rw [key]
      simp only [List.map_cons]
      refine ⟨?_, ?_, ?_, ?_, ?_⟩
      · rw [List.nodup_cons]
        refine ⟨fun hc => ?_, hnd⟩
        exact absurd (hmem' _ hc) (Finset.not_mem_erase _ _)
      · intro x hx
        rcases List.mem_cons.mp hx with rfl | hx'
        · exact hmem
        · exact Finset.erase_subset _ _ (hmem' _ hx')
      · rw [List.toFinset_cons, Finset.union_insert, hunion,
          Finset.insert_erase hmem]
      · exact hsub.trans (Finset.erase_subset _ _)
      · rw [List.toFinset_cons, Finset.disjoint_insert_right]
        refine ⟨fun hc => ?_, hdisj⟩
        exact absurd (hsub hc) (Finset.not_mem_erase _ _)
    · have key : deactivation_walk ((av, bv) :: rest) act i
          = deactivation_walk rest act (i + 1) := by
        simp [deactivation_walk, hmem]
      rw [key]
      exact ih act (i + 1)

/-- C10: on Fibonacci table members `simulate_gcd_computation` returns
without error; its deactivated values are pairwise distinct, all drawn
from the initial active prefix set (the table prefix up to the index of
`min(a, b)`), and together with `final_active_cells` they form a disjoint
partition of that initial set — a path divisor not currently active is
skipped, never removed twice. -/
theorem claim_C10_partition (a b : Int) (ha : a ∈ fibS) (hb : b ∈ fibS) :
    simulate_gcd_computation a b = some (simulate_gcd_core a b) ∧
    ((simulate_gcd_core a b).cells_deactivated.map GcdStepRec.deactivated).Nodup ∧
    (∀ x ∈ (simulate_gcd_core a b).cells_deactivated.map GcdStepRec.deactivated,
        x ∈ (fibS.take (List.indexOf (min a b) fibS + 1)).toFinset) ∧
    ((simulate_gcd_core a b).final_active_cells ∪
        ((simulate_gcd_core a b).cells_deactivated.map
            GcdStepRec.deactivated).toFinset
      = (fibS.take (List.indexOf (min a b) fibS + 1)).toFinset) ∧
    Disjoint (simulate_gcd_core a b).final_active_cells
      ((simulate_gcd_core a b).cells_deactivated.map
          GcdStepRec.deactivated).toFinset := by
  have hguard : ¬(a ∉ fibS ∨ b ∉ fibS) := by
    push_neg
    exact ⟨ha, hb⟩
  obtain ⟨hnd, hmem, hunion, hsub, hdisj⟩ :=
    deactivation_walk_spec (compute_gcd a.toNat b.toNat).2.2.dropLast
      (fibS.take (List.indexOf (min a b) fibS + 1)).toFinset 0
  exact ⟨by rw [simulate_gcd_computation, if_neg hguard], hnd, hmem, hunion, hdisj⟩

theorem claim_C10_partition_witness :
    (8 : Int) ∈ fibS ∧ (13 : Int) ∈ fibS ∧
      (simulate_gcd_computation 8 13 = some (simulate_gcd_core 8 13) ∧
       ((simulate_gcd_core 8 13).cells_deactivated.map GcdStepRec.deactivated).Nodup ∧
       (∀ x ∈ (simulate_gcd_core 8 13).cells_deactivated.map GcdStepRec.deactivated,
           x ∈ (fibS.take (List.indexOf (min (8 : Int) 13) fibS + 1)).toFinset) ∧
       ((simulate_gcd_core 8 13).final_active_cells ∪
           ((simulate_gcd_core 8 13).cells_deactivated.map
               GcdStepRec.deactivated).toFinset
         = (fibS.take (List.indexOf (min (8 : Int) 13) fibS + 1)).toFinset) ∧
       Disjoint (simulate_gcd_core 8 13).final_active_cells
         ((simulate_gcd_core 8 13).cells_deactivated.map
             GcdStepRec.deactivated).toFinset) :=
  ⟨by decide, by decide, claim_C10_partition 8 13 (by decide) (by decide)⟩
